import Mathlib

/-!
Verification of the ChessBot-Thunderdome sources against their specification.

The repository provides three Rust files: `src/src/lib.rs` (the `Evaluate`
search trait, the `Move` grammar, `Color` and `GameResult`), and
`src/thunderdome.rs` / `src/examples/thunderdome.rs` (the tournament driver
with `calculate_elo`).  The board, piece, position, square and game modules
(`board.rs`, `piece.rs`, ...) are declared in `lib.rs` but their sources are
absent, so the search engine is embedded generically over the trait interface
(exactly as the Rust default methods are compiled), and the few text helpers
of the missing modules that the `Move` grammar needs are modelled from the
specification; every such definition is marked `Modelled from the spec`.

Rust `f64` score arithmetic is modelled over `ℚ` (the claims under study are
about control flow, selection and exact sums, not rounding); Rust strings are
modelled as `List Char` in the move-text layer.  The machine-integer node
counter is modelled as `ℕ` (it counts evaluated leaves, far below `u64`
overflow for any terminating search).
-/

namespace ChessEngine

/-- The color of a piece, from `enum Color` in `src/src/lib.rs`. -/
inductive Color where
  | White
  | Black
deriving DecidableEq, Repr

/-- Color inversion, `impl Not for Color` / `Color::invert` in `src/src/lib.rs`. -/
def Color.invert : Color → Color
  | .White => .Black
  | .Black => .White

/-- Rust strings of the move-text layer, modelled as character lists. -/
abbrev RStr := List Char

/-- Modelled from the spec: `position.rs` is not among the sources.  §3
describes the coordinate of a square on the 8×8 grid with rank/file
decomposition carried as signed integers (off-board arithmetic is
representable but rejected at parse time). -/
structure Position where
  row : Int
  col : Int
deriving DecidableEq, Repr

/-- Modelled from the spec: `piece.rs` is not among the sources.  §3 lists
the six chess piece types. -/
inductive PieceType where
  | pawn
  | knight
  | bishop
  | rook
  | queen
  | king
deriving DecidableEq, Repr

/-- Modelled from the spec: the canonical lowercase piece-type name used in
the "<from> to <to> <piece-name>" promotion grammar of §3. -/
def PieceType.name : PieceType → RStr
  | .pawn => ['p', 'a', 'w', 'n']
  | .knight => ['k', 'n', 'i', 'g', 'h', 't']
  | .bishop => ['b', 'i', 's', 'h', 'o', 'p']
  | .rook => ['r', 'o', 'o', 'k']
  | .queen => ['q', 'u', 'e', 'e', 'n']
  | .king => ['k', 'i', 'n', 'g']

/-- Modelled from the spec: `piece.rs` is not among the sources.  §3 describes
a piece as a (type, color) pair, but the move-text interface that `lib.rs`
uses (`get_name`, `Piece::try_from`, `is_king`, `is_pawn`) observes a piece
only through its bare type name, and §3/§8 assert the move-text round-trip,
so a piece is modelled here by the component its printed name determines:
its type. -/
structure Piece where
  t : PieceType
deriving DecidableEq, Repr

/-- Modelled from the spec: `Piece::get_name`, the canonical printed name. -/
def Piece.get_name (p : Piece) : RStr := p.t.name

/-- Modelled from the spec: `Piece::is_king`. -/
def Piece.is_king (p : Piece) : Bool :=
  match p.t with
  | .king => true
  | _ => false

/-- Modelled from the spec: `Piece::is_pawn`. -/
def Piece.is_pawn (p : Piece) : Bool :=
  match p.t with
  | .pawn => true
  | _ => false

/-- Modelled from the spec: `Piece::try_from(&str)` of the missing `piece.rs`,
parsing the canonical piece-type names of the §3 promotion grammar. -/
def Piece.tryFromName (s : RStr) : Except String Piece :=
  if s = PieceType.name .pawn then .ok ⟨.pawn⟩
  else if s = PieceType.name .knight then .ok ⟨.knight⟩
  else if s = PieceType.name .bishop then .ok ⟨.bishop⟩
  else if s = PieceType.name .rook then .ok ⟨.rook⟩
  else if s = PieceType.name .queen then .ok ⟨.queen⟩
  else if s = PieceType.name .king then .ok ⟨.king⟩
  else .error "invalid piece name"

/-- Modelled from the spec: `Position::pgn` of the missing `position.rs`, the
two-character algebraic-notation parser of §3 ("e4"); malformed notation is
rejected per §7. -/
def Position.pgn (s : RStr) : Except String Position :=
  match s with
  | [f, r] =>
      if 'a' ≤ f ∧ f ≤ 'h' ∧ '1' ≤ r ∧ r ≤ '8' then
        .ok ⟨(r.toNat : Int) - ('1'.toNat : Int), (f.toNat : Int) - ('a'.toNat : Int)⟩
      else .error "invalid position"
  | _ => .error "invalid position"

/-- Modelled from the spec: printing a square in two-character algebraic
notation (file letter then rank digit), the `Display` of the missing
`position.rs` and inverse of `Position.pgn` on the board. -/
def Position.pgnStr (p : Position) : RStr :=
  [Char.ofNat ('a'.toNat + p.col.toNat), Char.ofNat ('1'.toNat + p.row.toNat)]

/-- A move that can be played on the board, from `enum Move` in
`src/src/lib.rs`. -/
inductive Move where
  | QueenSideCastle
  | KingSideCastle
  | Piece (src dst : Position)
  | Promotion (src dst : Position) (piece : ChessEngine.Piece)
  | Resign
deriving DecidableEq, Repr

/-- Rust `str::trim`, on character lists: drop whitespace from both ends. -/
def trimCs (s : RStr) : RStr :=
  ((s.dropWhile Char.isWhitespace).reverse.dropWhile Char.isWhitespace).reverse

/-- Rust `str::split_whitespace`, on character lists: split at runs of
whitespace and return the non-empty words in order.  The accumulator holds
the current word reversed. -/
def splitWsAux : RStr → RStr → List RStr
  | [], acc => if acc = [] then [] else [acc.reverse]
  | c :: cs, acc =>
      if c.isWhitespace then
        if acc = [] then splitWsAux cs [] else acc.reverse :: splitWsAux cs []
      else splitWsAux cs (c :: acc)

/-- Rust `str::split_whitespace` on character lists. -/
def splitWs (s : RStr) : List RStr := splitWsAux s []

/-- The coordinate-word arms of `impl TryFrom<String> for Move` in
`src/src/lib.rs` (the `other` branch of the match): one four-character word,
two words, "<from> to <to>", or "<from> to <to> <piece-name>" with king and
pawn promotions rejected.  Byte and character indexing coincide on this ASCII
grammar, so Rust's byte slicing `[..2]`/`[2..4]` is `take`/`drop` here. -/
def Move.fromWords (other : RStr) : Except String Move :=
  let words := splitWs other
  match words with
  | [w0] =>
      if w0.length = 4 then do
        let a ← Position.pgn (w0.take 2)
        let b ← Position.pgn ((w0.drop 2).take 2)
        .ok (.Piece a b)
      else .error "invalid move format"
  | [w0, w1] => do
      let a ← Position.pgn w0
      let b ← Position.pgn w1
      .ok (.Piece a b)
  | [w0, w1, w2] =>
      if w1 = ['t', 'o'] then do
        let a ← Position.pgn w0
        let b ← Position.pgn w2
        .ok (.Piece a b)
      else .error "invalid move format"
  | [w0, w1, w2, w3] =>
      if w1 = ['t', 'o'] then do
        let piece ← Piece.tryFromName w3
        if piece.is_king || piece.is_pawn then .error "invalid promotion"
        else do
          let a ← Position.pgn w0
          let b ← Position.pgn w2
          .ok (.Promotion a b piece)
      else .error "invalid move format"
  | _ => .error "invalid move format"

/-- `impl TryFrom<String> for Move` / `Move::parse` from `src/src/lib.rs`:
trim the input, match the fixed resignation and castling spellings, and fall
through to the coordinate-word grammar. -/
def Move.tryFrom (s : RStr) : Except String Move :=
  let r := trimCs s
  if r = ['r', 'e', 's', 'i', 'g', 'n'] ∨ r = ['r', 'e', 's', 'i', 'g', 'n', 's'] then
    .ok .Resign
  else if r = ['q', 'u', 'e', 'e', 'n', 's', 'i', 'd', 'e', ' ', 'c', 'a', 's', 't', 'l', 'e'] ∨
      r = ['c', 'a', 's', 't', 'l', 'e', ' ', 'q', 'u', 'e', 'e', 'n', 's', 'i', 'd', 'e'] ∨
      r = ['O', '-', 'O', '-', 'O'] ∨ r = ['0', '-', '0', '-', '0'] ∨
      r = ['o', '-', 'o', '-', 'o'] then
    .ok .QueenSideCastle
  else if r = ['k', 'i', 'n', 'g', 's', 'i', 'd', 'e', ' ', 'c', 'a', 's', 't', 'l', 'e'] ∨
      r = ['c', 'a', 's', 't', 'l', 'e', ' ', 'k', 'i', 'n', 'g', 's', 'i', 'd', 'e'] ∨
      r = ['O', '-', 'O'] ∨ r = ['0', '-', '0'] ∨ r = ['o', '-', 'o'] then
    .ok .KingSideCastle
  else Move.fromWords r

/-- `impl Display for Move` from `src/src/lib.rs`: the printed form of each
variant ("{from} to {to}", "{from} to {to} {name}", "O-O", "O-O-O",
"Resign"). -/
def Move.toStr : Move → RStr
  | .Piece a b => a.pgnStr ++ [' ', 't', 'o', ' '] ++ b.pgnStr
  | .Promotion a b p => a.pgnStr ++ [' ', 't', 'o', ' '] ++ b.pgnStr ++ [' '] ++ p.get_name
  | .KingSideCastle => ['O', '-', 'O']
  | .QueenSideCastle => ['O', '-', 'O', '-', 'O']
  | .Resign => ['R', 'e', 's', 'i', 'g', 'n']

/-- The result of playing a move, from `enum GameResult` in `src/src/lib.rs`.
The `Continuing` payload is the board type, which lives in the missing
`board.rs`, so the variant is parameterised by it. -/
inductive GameResult (β : Type) where
  | Continuing (b : β)
  | Victory (c : Color)
  | Stalemate
  | IllegalMove (m : Move)

/-- `calculate_elo` from `src/thunderdome.rs`.  `f64` arithmetic is modelled
over `ℚ`; the transcendental `f64::powf` has no exact rational counterpart,
so it is taken as the argument `powf`, applied to the base constant `10` and
the scaled rating difference exactly as in the source. -/
def calculate_elo (powf : ℚ → ℚ → ℚ) (player1_elo player2_elo : ℚ) {β : Type}
    (result : GameResult β) : ℚ × ℚ :=
  let K_FACTOR : ℚ := 32
  let ELO_DIFFERENCE_LIMIT : ℚ := 400
  let WIN_PROBABILITY_CONSTANT : ℚ := 10
  let elo_difference := (player2_elo - player1_elo) / ELO_DIFFERENCE_LIMIT
  let expected_win_probability := 1 / (1 + powf WIN_PROBABILITY_CONSTANT elo_difference)
  match result with
  | .Continuing _ => (player1_elo, player2_elo)
  | .IllegalMove _ => (player1_elo, player2_elo)
  | .Victory _ =>
      (player1_elo + K_FACTOR * (1 - expected_win_probability),
       player2_elo + K_FACTOR * (expected_win_probability - 1))
  | .Stalemate =>
      (player1_elo + K_FACTOR * (1 / 2 - expected_win_probability),
       player2_elo + K_FACTOR * (expected_win_probability - 1 / 2))

/-- The transposition cache: the `DashMap<String, f64>` of `src/src/lib.rs`,
modelled as an insertion-ordered association list.  `insert` is `cons` and
lookup takes the most recent binding, which matches the map's
overwrite-on-insert semantics while also keeping the insertion history
observable. -/
abbrev Cache := List (String × ℚ)

/-- Lookup in the transposition cache (`DashMap::get` / `contains_key`). -/
def lookupCache : Cache → String → Option ℚ
  | [], _ => none
  | (k, v) :: t, key => if k = key then some v else lookupCache t key

/-- The `[f64; 6]` heuristic weight vector. -/
abbrev Weights := Fin 6 → ℚ

/-- The `Evaluate` trait of `src/src/lib.rs`: the capability bundle the
search engine requires of a position type.  The one implementing board type
lives in the missing `board.rs`, so the search is verified generically over
any implementation, exactly as the Rust default trait methods are compiled.
`f64` scores are modelled over `ℚ`. -/
structure Evaluate (β : Type) where
  value_for : β → Color → ℚ
  mobility_value_for : β → Color → ℚ
  naive_value_for : β → Color → ℚ
  control_value_for : β → Color → ℚ
  closest_value_for : β → Color → ℚ
  trade_value_for : β → Color → ℚ
  get_current_player_color : β → Color
  get_legal_moves : β → List Move
  apply_eval_move : β → Move → β
  cache_repr : β → String

variable {β : Type}

/-- The `match engine` at the top of `Evaluate::minimax`: a missing weight
vector defaults to `[1.0, 0.0, 0.0, 0.0, 0.0, 0.0]`. -/
def resolveEngine : Option Weights → Weights
  | some a => a
  | none => ![1, 0, 0, 0, 0, 0]

/-- The `depth == 0` evaluation of `Evaluate::minimax`: starting from `0.0`,
each of the six heuristics is added, scaled by its weight, exactly when its
weight is non-zero (in the source a zero weight skips computing the heuristic
altogether; the conditional sum is its value-level content). -/
def leafEval (E : Evaluate β) (b : β) (getting_move_for : Color) (w : Weights) : ℚ :=
  (if w 0 ≠ 0 then E.value_for b getting_move_for * w 0 else 0)
  + (if w 1 ≠ 0 then E.mobility_value_for b getting_move_for * w 1 else 0)
  + (if w 2 ≠ 0 then E.naive_value_for b getting_move_for * w 2 else 0)
  + (if w 3 ≠ 0 then E.control_value_for b getting_move_for * w 3 else 0)
  + (if w 4 ≠ 0 then E.closest_value_for b getting_move_for * w 4 else 0)
  + (if w 5 ≠ 0 then E.trade_value_for b getting_move_for * w 5 else 0)

/-- The `i`-th heuristic of the 6-weight vector, in the order of
`Evaluate::minimax`: piece-table value, mobility, naive material, control,
king proximity, trade value. -/
def heurFn (E : Evaluate β) : Fin 6 → β → Color → ℚ
  | ⟨0, _⟩ => E.value_for
  | ⟨1, _⟩ => E.mobility_value_for
  | ⟨2, _⟩ => E.naive_value_for
  | ⟨3, _⟩ => E.control_value_for
  | ⟨4, _⟩ => E.closest_value_for
  | ⟨5, _⟩ => E.trade_value_for
  | ⟨n + 6, h⟩ => absurd h (by omega)

/-- The `is_maximizing` branch of the move loop in `Evaluate::minimax`.
For each move the current position's `cache_repr` is looked up; on a hit the
cached score is the child value, otherwise `recCall` (the recursive `minimax`
at `depth - 1`, supplied by the caller) evaluates the position after the
move.  The running maximum and `alpha` are updated and the loop returns early
once `beta <= alpha`.  The mutable `board_count` and cache are threaded
through in argument order. -/
def maxLoop (E : Evaluate β) (b : β)
    (recCall : β → ℚ → ℚ → ℕ → Cache → ℚ × ℕ × Cache) :
    List Move → ℚ → ℚ → ℚ → ℕ → Cache → ℚ × ℕ × Cache
  | [], best, _alpha, _beta, cnt, cache => (best, cnt, cache)
  | m :: ms, best, alpha, beta, cnt, cache =>
      let step : ℚ × ℕ × Cache :=
        match lookupCache cache (E.cache_repr b) with
        | some v => (v, cnt, cache)
        | none => recCall (E.apply_eval_move b m) alpha beta cnt cache
      let best' := if step.1 > best then step.1 else best
      let alpha' := if best' > alpha then best' else alpha
      if beta ≤ alpha' then (best', step.2.1, step.2.2)
      else maxLoop E b recCall ms best' alpha' beta step.2.1 step.2.2

/-- The minimizing branch of the move loop in `Evaluate::minimax`, mirror
image of `maxLoop`: the running minimum and `beta` are updated and the loop
returns early once `beta <= alpha`. -/
def minLoop (E : Evaluate β) (b : β)
    (recCall : β → ℚ → ℚ → ℕ → Cache → ℚ × ℕ × Cache) :
    List Move → ℚ → ℚ → ℚ → ℕ → Cache → ℚ × ℕ × Cache
  | [], best, _alpha, _beta, cnt, cache => (best, cnt, cache)
  | m :: ms, best, alpha, beta, cnt, cache =>
      let step : ℚ × ℕ × Cache :=
        match lookupCache cache (E.cache_repr b) with
        | some v => (v, cnt, cache)
        | none => recCall (E.apply_eval_move b m) alpha beta cnt cache
      let best' := if step.1 < best then step.1 else best
      let beta' := if best' < beta then best' else beta
      if beta' ≤ alpha then (best', step.2.1, step.2.2)
      else minLoop E b recCall ms best' alpha beta' step.2.1 step.2.2

/-- `Evaluate::minimax` from `src/src/lib.rs`.  The depth is `ℕ` (the Rust
`i32` recursion `depth - 1` only terminates from non-negative depths; a
negative starting depth never reaches the `depth == 0` base case).  The
result carries the returned `f64` score together with the final values of
the two `&mut` parameters: the node counter and the transposition cache.
At `depth == 0` the counter is incremented, the weighted evaluation is
computed and inserted into the cache under the current position's
`cache_repr`, and returned.  Otherwise the legal moves are scanned by
`maxLoop`/`minLoop`, whose recursive calls flip `is_maximizing` and pass
`Some eval_engine` on. -/
def minimax (E : Evaluate β) (b : β) (depth : ℕ) (alpha beta : ℚ)
    (is_maximizing : Bool) (getting_move_for : Color) (board_count : ℕ)
    (engine : Option Weights) (cache : Cache) : ℚ × ℕ × Cache :=
  let eval_engine := resolveEngine engine
  match depth with
  | 0 =>
      let eval := leafEval E b getting_move_for eval_engine
      (eval, board_count + 1, (E.cache_repr b, eval) :: cache)
  | d + 1 =>
      if is_maximizing then
        maxLoop E b
          (fun b' a' b2 c' cch =>
            minimax E b' d a' b2 (!is_maximizing) getting_move_for c' (some eval_engine) cch)
          (E.get_legal_moves b) (-999999) alpha beta board_count cache
      else
        minLoop E b
          (fun b' a' b2 c' cch =>
            minimax E b' d a' b2 (!is_maximizing) getting_move_for c' (some eval_engine) cch)
          (E.get_legal_moves b) 999999 alpha beta board_count cache
termination_by structural depth

/-- The root-move evaluation of `get_best_next_move` in `src/src/lib.rs`:
each legal move is mapped to `(move, minimax value of the position after it)`
with window `(-1000000, 1000000)`, `is_maximizing = false` and the caller's
engine option.  The node counter and the transposition cache are shared
across the whole scan (in the source they sit behind an `Arc<Mutex<..>>`
that each task locks for its entire `minimax` call, so the scan is a
serialised fold); the embedding takes the deterministic iteration order the
spec prescribes. -/
def evalRootMoves (E : Evaluate β) (b : β) (depth : ℕ) (color : Color)
    (engine : Option Weights) :
    List Move → ℕ → Cache → List (Move × ℚ) × ℕ × Cache
  | [], cnt, cache => ([], cnt, cache)
  | m :: ms, cnt, cache =>
      let r := minimax E (E.apply_eval_move b m) depth (-1000000) 1000000 false color cnt
        engine cache
      let rest := evalRootMoves E b depth color engine ms r.2.1 r.2.2
      ((m, r.1) :: rest.1, rest.2.1, rest.2.2)

/-- Rust's `Iterator::max_by` (and rayon's `ParallelIterator::max_by`) with
comparator `a.partial_cmp(&b).unwrap_or(Equal)`: `none` on an empty list,
otherwise the fold that keeps the accumulator only when it is strictly
greater, so ties go to the later element. -/
def rustMaxBy (l : List (Move × ℚ)) : Option (Move × ℚ) :=
  match l with
  | [] => none
  | x :: xs => some (xs.foldl (fun acc y => if acc.2 > y.2 then acc else y) x)

/-- `Evaluate::get_best_next_move` from `src/src/lib.rs`: evaluate every
legal root move with a fresh counter and cache, pick the maximum-scoring
pair with `max_by`, and return `(move, node count, score)`.  The source
`unwrap`s the `max_by` result, which panics exactly when there are no legal
moves; the panic is modelled as `none`. -/
def get_best_next_move (E : Evaluate β) (b : β) (depth : ℕ)
    (engine : Option Weights) : Option (Move × ℕ × ℚ) :=
  let legal_moves := E.get_legal_moves b
  let color := E.get_current_player_color b
  let r := evalRootMoves E b depth color engine legal_moves 0 []
  match rustMaxBy r.1 with
  | none => none
  | some (mv, v) => some (mv, r.2.1, v)

/-- `Evaluate::get_worst_next_move` from `src/src/lib.rs`: its body is the
identical maximise-and-select logic of `get_best_next_move`, transcribed
separately and verbatim. -/
def get_worst_next_move (E : Evaluate β) (b : β) (depth : ℕ)
    (engine : Option Weights) : Option (Move × ℕ × ℚ) :=
  let legal_moves := E.get_legal_moves b
  let color := E.get_current_player_color b
  let r := evalRootMoves E b depth color engine legal_moves 0 []
  match rustMaxBy r.1 with
  | none => none
  | some (mv, v) => some (mv, r.2.1, v)

/-! ### Ghost-instrumented search

`minimaxEv` is `minimax` with one ghost component added: the list of
depth-0 leaf evaluations the call performs, in order, each recorded as the
pair (position evaluated, score computed).  An event is appended exactly at
the one site where the source increments `*board_count` and inserts into the
cache — the `depth == 0` branch — and nowhere else; the projection lemmas
below prove the instrumented function equal to `minimax`, so statements
about "the number of depth-0 leaf evaluations" of the source can be made
about the ghost trace. -/

/-- `maxLoop` with the ghost leaf-evaluation trace threaded through. -/
def maxLoopEv (E : Evaluate β) (b : β)
    (recCall : β → ℚ → ℚ → ℕ → Cache → (ℚ × ℕ × Cache) × List (β × ℚ)) :
    List Move → ℚ → ℚ → ℚ → ℕ → Cache → (ℚ × ℕ × Cache) × List (β × ℚ)
  | [], best, _alpha, _beta, cnt, cache => ((best, cnt, cache), [])
  | m :: ms, best, alpha, beta, cnt, cache =>
      let step : (ℚ × ℕ × Cache) × List (β × ℚ) :=
        match lookupCache cache (E.cache_repr b) with
        | some v => ((v, cnt, cache), [])
        | none => recCall (E.apply_eval_move b m) alpha beta cnt cache
      let best' := if step.1.1 > best then step.1.1 else best
      let alpha' := if best' > alpha then best' else alpha
      if beta ≤ alpha' then ((best', step.1.2.1, step.1.2.2), step.2)
      else
        let rest := maxLoopEv E b recCall ms best' alpha' beta step.1.2.1 step.1.2.2
        (rest.1, step.2 ++ rest.2)

/-- `minLoop` with the ghost leaf-evaluation trace threaded through. -/
def minLoopEv (E : Evaluate β) (b : β)
    (recCall : β → ℚ → ℚ → ℕ → Cache → (ℚ × ℕ × Cache) × List (β × ℚ)) :
    List Move → ℚ → ℚ → ℚ → ℕ → Cache → (ℚ × ℕ × Cache) × List (β × ℚ)
  | [], best, _alpha, _beta, cnt, cache => ((best, cnt, cache), [])
  | m :: ms, best, alpha, beta, cnt, cache =>
      let step : (ℚ × ℕ × Cache) × List (β × ℚ) :=
        match lookupCache cache (E.cache_repr b) with
        | some v => ((v, cnt, cache), [])
        | none => recCall (E.apply_eval_move b m) alpha beta cnt cache
      let best' := if step.1.1 < best then step.1.1 else best
      let beta' := if best' < beta then best' else beta
      if beta' ≤ alpha then ((best', step.1.2.1, step.1.2.2), step.2)
      else
        let rest := minLoopEv E b recCall ms best' alpha beta' step.1.2.1 step.1.2.2
        (rest.1, step.2 ++ rest.2)

/-- `minimax` with the ghost leaf-evaluation trace: the second component
lists, in evaluation order, the (position, score) of every `depth == 0`
evaluation the call performs. -/
def minimaxEv (E : Evaluate β) (b : β) (depth : ℕ) (alpha beta : ℚ)
    (is_maximizing : Bool) (getting_move_for : Color) (board_count : ℕ)
    (engine : Option Weights) (cache : Cache) : (ℚ × ℕ × Cache) × List (β × ℚ) :=
  let eval_engine := resolveEngine engine
  match depth with
  | 0 =>
      let eval := leafEval E b getting_move_for eval_engine
      ((eval, board_count + 1, (E.cache_repr b, eval) :: cache), [(b, eval)])
  | d + 1 =>
      if is_maximizing then
        maxLoopEv E b
          (fun b' a' b2 c' cch =>
            minimaxEv E b' d a' b2 (!is_maximizing) getting_move_for c' (some eval_engine) cch)
          (E.get_legal_moves b) (-999999) alpha beta board_count cache
      else
        minLoopEv E b
          (fun b' a' b2 c' cch =>
            minimaxEv E b' d a' b2 (!is_maximizing) getting_move_for c' (some eval_engine) cch)
          (E.get_legal_moves b) 999999 alpha beta board_count cache
termination_by structural depth

/-- `evalRootMoves` with the ghost leaf-evaluation trace. -/
def evalRootMovesEv (E : Evaluate β) (b : β) (depth : ℕ) (color : Color)
    (engine : Option Weights) :
    List Move → ℕ → Cache → (List (Move × ℚ) × ℕ × Cache) × List (β × ℚ)
  | [], cnt, cache => (([], cnt, cache), [])
  | m :: ms, cnt, cache =>
      let r := minimaxEv E (E.apply_eval_move b m) depth (-1000000) 1000000 false color cnt
        engine cache
      let rest := evalRootMovesEv E b depth color engine ms r.1.2.1 r.1.2.2
      (((m, r.1.1) :: rest.1.1, rest.1.2.1, rest.1.2.2), r.2 ++ rest.2)

/-! ### Predicates for the move-text claims -/

/-- A square actually on the 8×8 board (§3: positions are always on-board;
the engine only produces moves between on-board squares). -/
def onBoard (p : Position) : Prop :=
  0 ≤ p.row ∧ p.row < 8 ∧ 0 ≤ p.col ∧ p.col < 8

instance (p : Position) : Decidable (onBoard p) := by
  unfold onBoard
  infer_instance

/-- The moves other than `Resign` that the engine can produce: piece moves
and promotions between on-board squares, promotions never to king or pawn
(§3), and the two castles. -/
def producibleNonResign : Move → Prop
  | .Piece a b => onBoard a ∧ onBoard b
  | .Promotion a b p => onBoard a ∧ onBoard b ∧ p.is_king = false ∧ p.is_pawn = false
  | .KingSideCastle => True
  | .QueenSideCastle => True
  | .Resign => False

/-! ### Concrete example games

Tiny hand-built `Evaluate` instances over `β := ℕ`, used as explicit inputs
for counterexamples and witnesses.  Board `0` is the root; other numbers are
the positions after each move. -/

/-- A concrete piece move used by the example games. -/
def mvA : Move := .Piece ⟨0, 0⟩ ⟨0, 0⟩

/-- Example game with two root moves whose searches tie at score 5. -/
def Etie : Evaluate ℕ where
  value_for := fun _ _ => 5
  mobility_value_for := fun _ _ => 0
  naive_value_for := fun _ _ => 0
  control_value_for := fun _ _ => 0
  closest_value_for := fun _ _ => 0
  trade_value_for := fun _ _ => 0
  get_current_player_color := fun _ => .White
  get_legal_moves := fun b => if b = 0 then [mvA, .KingSideCastle] else []
  apply_eval_move := fun b m => if b = 0 then (if m = mvA then 1 else 2) else 0
  cache_repr := fun b => if b = 1 then "b1" else if b = 2 then "b2" else "b0"

/-- Example game with a single root move to a position of score 7. -/
def Elin : Evaluate ℕ where
  value_for := fun b _ => if b = 1 then 7 else 3
  mobility_value_for := fun _ _ => 0
  naive_value_for := fun _ _ => 0
  control_value_for := fun _ _ => 0
  closest_value_for := fun _ _ => 0
  trade_value_for := fun _ _ => 0
  get_current_player_color := fun _ => .White
  get_legal_moves := fun _ => [mvA]
  apply_eval_move := fun _ _ => 1
  cache_repr := fun b => if b = 1 then "r1" else "r0"

/-- A cache that holds a score for the position reached by the only legal
move of `Elin` (key "r1"), but nothing for the root (key "r0"). -/
def childCache : Cache := [("r1", 42)]

/-- A cache that holds a score under the root position's own key "r0". -/
def rootCache : Cache := [("r0", 9)]

/-- Decidable equality for `Except`, to evaluate parser results. -/
instance {ε α : Type} [DecidableEq ε] [DecidableEq α] : DecidableEq (Except ε α) := fun a b =>
  match a, b with
  | .error e, .error f =>
      if h : e = f then isTrue (by rw [h])
      else isFalse (fun hh => h (Except.error.inj hh))
  | .error _, .ok _ => isFalse (fun hh => Except.noConfusion hh)
  | .ok _, .error _ => isFalse (fun hh => Except.noConfusion hh)
  | .ok x, .ok y =>
      if h : x = y then isTrue (by rw [h])
      else isFalse (fun hh => h (Except.ok.inj hh))

/-!
## Theorems

Helper lemmas first, then one theorem per claim (with its witness or
counterexample where required).
-/

/-- C1: for every position, search depth and weight vector,
`get_worst_next_move` returns exactly the same (move, node count, score)
triple as `get_best_next_move`: the two source bodies are identical, so the
functions are extensionally equal. -/
theorem get_worst_eq_get_best : ∀ (γ : Type) (E : Evaluate γ) (b : γ) (depth : ℕ)
    (engine : Option Weights),
    get_worst_next_move E b depth engine = get_best_next_move E b depth engine := by
  intro γ E b depth engine
  rfl

/-- C9: `calculate_elo` leaves the ratings unchanged on `Continuing` and
`IllegalMove`; on `Victory` it returns
`(p1 + 32 * (1 - e), p2 + 32 * (e - 1))` and on `Stalemate`
`(p1 + 32 * (1/2 - e), p2 + 32 * (e - 1/2))`, where
`e = 1 / (1 + 10 ^ ((p2 - p1) / 400))` is the logistic expected score with
K-factor `32`, base `10` and scaling divisor `400` (the real
exponentiation `f64::powf` is abstracted as `powf`). -/
theorem calculate_elo_spec : ∀ (powf : ℚ → ℚ → ℚ) (p1 p2 : ℚ) (γ : Type) (b : γ)
    (c : Color) (m : Move),
    calculate_elo powf p1 p2 (GameResult.Continuing b) = (p1, p2) ∧
    calculate_elo powf p1 p2 (GameResult.IllegalMove (β := γ) m) = (p1, p2) ∧
    calculate_elo powf p1 p2 (GameResult.Victory (β := γ) c)
      = (p1 + 32 * (1 - 1 / (1 + powf 10 ((p2 - p1) / 400))),
         p2 + 32 * (1 / (1 + powf 10 ((p2 - p1) / 400)) - 1)) ∧
    calculate_elo powf p1 p2 (GameResult.Stalemate (β := γ))
      = (p1 + 32 * (1 / 2 - 1 / (1 + powf 10 ((p2 - p1) / 400))),
         p2 + 32 * (1 / (1 + powf 10 ((p2 - p1) / 400)) - 1 / 2)) := by
  intro powf p1 p2 γ b c m
  exact ⟨rfl, rfl, rfl, rfl⟩

/-- C10: `minimax` with `engine = None` behaves identically to `minimax`
with `engine = Some [1, 0, 0, 0, 0, 0]` on every position, depth, window
and flag: the source resolves the option to that default array before any
other work and the recursion re-wraps it in `Some`. -/
theorem minimax_none_engine_default : ∀ (γ : Type) (E : Evaluate γ) (b : γ)
    (depth : ℕ) (alpha beta : ℚ) (mx : Bool) (col : Color) (cnt : ℕ) (cache : Cache),
    minimax E b depth alpha beta mx col cnt none cache
      = minimax E b depth alpha beta mx col cnt (some ![1, 0, 0, 0, 0, 0]) cache := by
  intro γ E b depth alpha beta mx col cnt cache
  cases depth <;> rfl

/-- C7: the depth-0 minimax evaluation is exactly the sum, over the indices
whose weight is non-zero, of the heuristic for the perspective color scaled
by its weight; zero-weight heuristics contribute nothing (in the source they
are skipped entirely, not multiplied by zero). -/
theorem minimax_depth0_weighted_sum : ∀ (γ : Type) (E : Evaluate γ) (b : γ)
    (alpha beta : ℚ) (mx : Bool) (col : Color) (cnt : ℕ) (w : Weights) (cache : Cache),
    (minimax E b 0 alpha beta mx col cnt (some w) cache).1
      = ∑ i in Finset.univ.filter (fun i => w i ≠ 0), heurFn E i b col * w i := by
  intro γ E b alpha beta mx col cnt w cache
  rw [Finset.sum_filter, Fin.sum_univ_six]
  rfl

/-- The root scan pairs each legal move, in order, with its score: the first
projections of `evalRootMoves` are the input move list. -/
theorem evalRootMoves_map_fst (E : Evaluate β) (b : β) (depth : ℕ) (col : Color)
    (engine : Option Weights) :
    ∀ (ms : List Move) (cnt : ℕ) (cache : Cache),
    ((evalRootMoves E b depth col engine ms cnt cache).1).map Prod.fst = ms := by
  intro ms
  induction ms with
  | nil => intro cnt cache; rfl
  | cons m ms ih => intro cnt cache; simp only [evalRootMoves, List.map_cons, ih]

/-- The fold underlying Rust's `max_by`: starting from `acc`, it returns
either `acc` itself (when everything later is strictly smaller) or the last
element of the list that is maximal: everything before it is `≤`, everything
after it is `<`, and `acc` is `≤` it. -/
theorem foldl_rustMax_spec :
    ∀ (xs : List (Move × ℚ)) (acc : Move × ℚ),
    ((∀ p ∈ xs, p.2 < acc.2) ∧
        xs.foldl (fun a y => if a.2 > y.2 then a else y) acc = acc) ∨
      (∃ x l1 l2, xs = l1 ++ x :: l2 ∧
        xs.foldl (fun a y => if a.2 > y.2 then a else y) acc = x ∧
        acc.2 ≤ x.2 ∧ (∀ p ∈ l1, p.2 ≤ x.2) ∧ (∀ p ∈ l2, p.2 < x.2)) := by
  intro xs
  induction xs with
  | nil => intro acc; exact Or.inl ⟨by simp, rfl⟩
  | cons y ys ih =>
      intro acc
      by_cases h : acc.2 > y.2
      · have hstep : (y :: ys).foldl (fun a y => if a.2 > y.2 then a else y) acc
            = ys.foldl (fun a y => if a.2 > y.2 then a else y) acc := by
          simp [List.foldl_cons, if_pos h]
        rcases ih acc with ⟨hall, heq⟩ | ⟨x, l1, l2, hsplit, heq, hle, h1, h2⟩
        · refine Or.inl ⟨?_, by rw [hstep, heq]⟩
          intro p hp
          rcases List.mem_cons.mp hp with hp | hp
          · exact hp ▸ h
          · exact hall p hp
        · refine Or.inr ⟨x, y :: l1, l2, by rw [hsplit]; rfl, by rw [hstep, heq], hle, ?_, h2⟩
          intro p hp
          rcases List.mem_cons.mp hp with hp | hp
          · exact hp ▸ le_of_lt (lt_of_lt_of_le h hle)
          · exact h1 p hp
      · have hy : acc.2 ≤ y.2 := le_of_not_lt h
        have hstep : (y :: ys).foldl (fun a y => if a.2 > y.2 then a else y) acc
            = ys.foldl (fun a y => if a.2 > y.2 then a else y) y := by
          simp [List.foldl_cons, if_neg h]
        rcases ih y with ⟨hall, heq⟩ | ⟨x, l1, l2, hsplit, heq, hle, h1, h2⟩
        · exact Or.inr ⟨y, [], ys, rfl, by rw [hstep, heq], hy, by simp, hall⟩
        · refine Or.inr ⟨x, y :: l1, l2, by rw [hsplit]; rfl, by rw [hstep, heq],
            le_trans hy hle, ?_, h2⟩
          intro p hp
          rcases List.mem_cons.mp hp with hp | hp
          · exact hp ▸ hle
          · exact h1 p hp

/-- `rustMaxBy` of a non-empty list returns the last maximal element:
everything before it scores `≤` it, everything after it scores strictly
less. -/
theorem rustMaxBy_spec :
    ∀ (l : List (Move × ℚ)), l ≠ [] →
    ∃ x l1 l2, rustMaxBy l = some x ∧ l = l1 ++ x :: l2 ∧
      (∀ p ∈ l1, p.2 ≤ x.2) ∧ (∀ p ∈ l2, p.2 < x.2) := by
  intro l hne
  match l with
  | [] => exact absurd rfl hne
  | x0 :: xs =>
      rcases foldl_rustMax_spec xs x0 with ⟨hall, heq⟩ | ⟨x, l1, l2, hsplit, heq, hle, h1, h2⟩
      · exact ⟨x0, [], xs, by simp [rustMaxBy, heq], rfl, by simp, hall⟩
      · refine ⟨x, x0 :: l1, l2, by simp [rustMaxBy, heq], by rw [hsplit]; rfl, ?_, h2⟩
        intro p hp
        rcases List.mem_cons.mp hp with hp | hp
        · exact hp ▸ hle
        · exact h1 p hp

/-- C8: with at least one legal move `get_best_next_move` returns a triple
(the `unwrap` of the `max_by` over the root scan cannot fail); with zero
legal moves the `max_by` is `None` and the `unwrap` is a fatal panic,
modelled as `none`. -/
theorem get_best_unwrap_safety : ∀ (γ : Type) (E : Evaluate γ) (b : γ) (depth : ℕ)
    (engine : Option Weights),
    (E.get_legal_moves b ≠ [] →
      ∃ mv cnt v, get_best_next_move E b depth engine = some (mv, cnt, v)) ∧
    (E.get_legal_moves b = [] → get_best_next_move E b depth engine = none) := by
  intro γ E b depth engine
  constructor
  · intro h
    have hmap := evalRootMoves_map_fst E b depth (E.get_current_player_color b) engine
      (E.get_legal_moves b) 0 []
    have hne : (evalRootMoves E b depth (E.get_current_player_color b) engine
        (E.get_legal_moves b) 0 []).1 ≠ [] := by
      intro hnil
      rw [hnil] at hmap
      exact h hmap.symm
    rcases rustMaxBy_spec _ hne with ⟨x, l1, l2, hmb, _⟩
    obtain ⟨mv, v⟩ := x
    refine ⟨mv, (evalRootMoves E b depth (E.get_current_player_color b) engine
        (E.get_legal_moves b) 0 []).2.1, v, ?_⟩
    simp [get_best_next_move, hmb]
  · intro h
    simp [get_best_next_move, h, evalRootMoves, rustMaxBy]

/-- C8 witness: on the concrete game `Etie` (two legal root moves) the
search returns a triple. -/
theorem get_best_unwrap_safety_witness :
    ∃ mv cnt v, get_best_next_move Etie 0 0 none = some (mv, cnt, v) :=
  (get_best_unwrap_safety ℕ Etie 0 0 none).1 (by decide)

/-- C4, amended: the move returned by `get_best_next_move` attains the
maximum score over the root scan, and among equal maxima it is the last
move in the legal-move iteration order (everything before it scores `≤`,
everything after it scores strictly less) — not the first, because Rust's
`max_by` keeps the later element on ties. -/
theorem get_best_attains_max_last_tie : ∀ (γ : Type) (E : Evaluate γ) (b : γ)
    (depth : ℕ) (engine : Option Weights),
    E.get_legal_moves b ≠ [] →
    ∃ mv cnt v l1 l2,
      get_best_next_move E b depth engine = some (mv, cnt, v) ∧
      (evalRootMoves E b depth (E.get_current_player_color b) engine
          (E.get_legal_moves b) 0 []).1 = l1 ++ (mv, v) :: l2 ∧
      (∀ p ∈ l1, p.2 ≤ v) ∧ (∀ p ∈ l2, p.2 < v) := by
  intro γ E b depth engine h
  have hmap := evalRootMoves_map_fst E b depth (E.get_current_player_color b) engine
    (E.get_legal_moves b) 0 []
  have hne : (evalRootMoves E b depth (E.get_current_player_color b) engine
      (E.get_legal_moves b) 0 []).1 ≠ [] := by
    intro hnil
    rw [hnil] at hmap
    exact h hmap.symm
  rcases rustMaxBy_spec _ hne with ⟨x, l1, l2, hmb, hsplit, h1, h2⟩
  obtain ⟨mv, v⟩ := x
  exact ⟨mv, (evalRootMoves E b depth (E.get_current_player_color b) engine
      (E.get_legal_moves b) 0 []).2.1, v, l1, l2,
    by simp [get_best_next_move, hmb], hsplit, h1, h2⟩

/-- C4 counterexample: in the game `Etie` both root moves score `5`; the
claim as stated predicts the first legal move `mvA` is returned, but the
source returns the second, `KingSideCastle`. -/
theorem get_best_tie_not_first :
    Etie.get_legal_moves 0 = [mvA, Move.KingSideCastle] ∧
    (evalRootMoves Etie 0 0 Color.White none [mvA, Move.KingSideCastle] 0 []).1
      = [(mvA, 5), (Move.KingSideCastle, 5)] ∧
    get_best_next_move Etie 0 0 none = some (Move.KingSideCastle, 2, 5) ∧
    Move.KingSideCastle ≠ mvA := by
  refine ⟨rfl, ?_, ?_, by decide⟩
  · simp [evalRootMoves, minimax, leafEval, resolveEngine, Etie, lookupCache, mvA]
  · simp [get_best_next_move, evalRootMoves, minimax, leafEval, resolveEngine,
      rustMaxBy, Etie, lookupCache, mvA]

/-- C4 witness: the amended statement instantiated on the concrete game
`Etie`. -/
theorem get_best_attains_max_witness :
    ∃ mv cnt v l1 l2,
      get_best_next_move Etie 0 0 none = some (mv, cnt, v) ∧
      (evalRootMoves Etie 0 0 (Etie.get_current_player_color 0) none
          (Etie.get_legal_moves 0) 0 []).1 = l1 ++ (mv, v) :: l2 ∧
      (∀ p ∈ l1, p.2 ≤ v) ∧ (∀ p ∈ l2, p.2 < v) :=
  get_best_attains_max_last_tie ℕ Etie 0 0 none (by decide)

/-- Once the running maximum already equals the cached score of the current
position, every remaining iteration of the maximizing loop re-reads that same
score and changes nothing: the loop returns it with counter and cache
untouched. -/
theorem maxLoop_cache_hit (E : Evaluate β) (b : β)
    (rec : β → ℚ → ℚ → ℕ → Cache → ℚ × ℕ × Cache) (v beta : ℚ) (cnt : ℕ)
    (cache : Cache) (h : lookupCache cache (E.cache_repr b) = some v) :
    ∀ (ms : List Move) (alpha : ℚ),
    maxLoop E b rec ms v alpha beta cnt cache = (v, cnt, cache) := by
  intro ms
  induction ms with
  | nil => intro alpha; simp [maxLoop]
  | cons m ms ih =>
      intro alpha
      simp only [maxLoop, h, ite_self]
      split <;> split
      · rfl
      · exact ih _
      · rfl
      · exact ih _

/-- Mirror of `maxLoop_cache_hit` for the minimizing loop. -/
theorem minLoop_cache_hit (E : Evaluate β) (b : β)
    (rec : β → ℚ → ℚ → ℕ → Cache → ℚ × ℕ × Cache) (v alpha : ℚ) (cnt : ℕ)
    (cache : Cache) (h : lookupCache cache (E.cache_repr b) = some v) :
    ∀ (ms : List Move) (beta : ℚ),
    minLoop E b rec ms v alpha beta cnt cache = (v, cnt, cache) := by
  intro ms
  induction ms with
  | nil => intro beta; simp [minLoop]
  | cons m ms ih =>
      intro beta
      simp only [minLoop, h, ite_self]
      split <;> split
      · rfl
      · exact ih _
      · rfl
      · exact ih _

/-- C3, amended: at an internal node the transposition cache is consulted
under the *current* position's `cache_repr` (not the child's); when that key
is present the cached score is used as the child value of every move, so the
whole node returns the cached score without any recursion and leaves the
node counter and the cache untouched.  (The bounds keep the cached score
from being absorbed by the loop seeds `-999999`/`999999`.) -/
theorem minimax_internal_cache_hit : ∀ (γ : Type) (E : Evaluate γ) (b : γ) (d : ℕ)
    (alpha beta : ℚ) (mx : Bool) (col : Color) (cnt : ℕ) (engine : Option Weights)
    (cache : Cache) (v : ℚ),
    lookupCache cache (E.cache_repr b) = some v →
    E.get_legal_moves b ≠ [] →
    -999999 < v → v < 999999 →
    minimax E b (d + 1) alpha beta mx col cnt engine cache = (v, cnt, cache) := by
  intro γ E b d alpha beta mx col cnt engine cache v hhit hne hv1 hv2
  obtain ⟨m, ms, hms⟩ : ∃ m ms, E.get_legal_moves b = m :: ms := by
    cases hleg : E.get_legal_moves b with
    | nil => exact absurd hleg hne
    | cons m ms => exact ⟨m, ms, rfl⟩
  cases mx
  · simp only [minimax, Bool.false_eq_true, if_false, hms]
    simp only [minLoop, hhit]
    rw [if_pos hv2]
    split <;> split
    · rfl
    · exact minLoop_cache_hit E b _ v alpha cnt cache hhit ms _
    · rfl
    · exact minLoop_cache_hit E b _ v alpha cnt cache hhit ms _
  · simp only [minimax, if_true, hms]
    simp only [maxLoop, hhit]
    rw [if_pos hv1]
    split <;> split
    · rfl
    · exact maxLoop_cache_hit E b _ v beta cnt cache hhit ms _
    · rfl
    · exact maxLoop_cache_hit E b _ v beta cnt cache hhit ms _

/-- C3 counterexample: in the game `Elin` the cache holds `42` under the key
of the position reached by the only legal move, yet the internal node does
not use it — it looks up its own key, misses, recurses, and produces `7`. -/
theorem minimax_child_key_not_used :
    lookupCache childCache (Elin.cache_repr (Elin.apply_eval_move 0 mvA)) = some 42 ∧
    minimax Elin 0 1 (-1000000) 1000000 true Color.White 0 none childCache
      = (7, 1, ("r1", 7) :: childCache) ∧
    (7 : ℚ) ≠ 42 := by
  refine ⟨by simp [childCache, Elin, lookupCache], ?_, by norm_num⟩
  simp [minimax, maxLoop, leafEval, resolveEngine, Elin, childCache, lookupCache, mvA]
  norm_num

/-- C3 witness: on `Elin` with its own key preloaded (score `9`), the
internal node at depth 1 returns the cached score untouched. -/
theorem minimax_internal_cache_hit_witness :
    minimax Elin 0 1 (-1000000) 1000000 true Color.White 5 none rootCache
      = (9, 5, rootCache) :=
  minimax_internal_cache_hit ℕ Elin 0 0 (-1000000) 1000000 true Color.White 5 none
    rootCache 9 (by simp [rootCache, Elin, lookupCache]) (by decide)
    (by norm_num) (by norm_num)

/-- Dropping the ghost trace from `maxLoopEv` gives `maxLoop`, provided the
supplied recursive calls agree likewise. -/
theorem maxLoopEv_fst (E : Evaluate β) (b : β)
    (recEv : β → ℚ → ℚ → ℕ → Cache → (ℚ × ℕ × Cache) × List (β × ℚ))
    (recP : β → ℚ → ℚ → ℕ → Cache → ℚ × ℕ × Cache)
    (hrec : ∀ b' a' b2 c' cch, (recEv b' a' b2 c' cch).1 = recP b' a' b2 c' cch) :
    ∀ (ms : List Move) (best alpha beta : ℚ) (cnt : ℕ) (cache : Cache),
    (maxLoopEv E b recEv ms best alpha beta cnt cache).1
      = maxLoop E b recP ms best alpha beta cnt cache := by
  intro ms
  induction ms with
  | nil => intro best alpha beta cnt cache; rfl
  | cons m ms ih =>
      intro best alpha beta cnt cache
      cases h : lookupCache cache (E.cache_repr b) with
      | some v =>
          simp only [maxLoopEv, maxLoop, h]
          set best' := if v > best then v else best with hbdef
          set alpha' := if best' > alpha then best' else alpha with hadef
          by_cases hcut : beta ≤ alpha'
          · rw [if_pos hcut, if_pos hcut]
          · rw [if_neg hcut, if_neg hcut]
            exact ih _ _ _ _ _
      | none =>
          simp only [maxLoopEv, maxLoop, h, hrec]
          set r := recP (E.apply_eval_move b m) alpha beta cnt cache with hrdef
          set best' := if r.1 > best then r.1 else best with hbdef
          set alpha' := if best' > alpha then best' else alpha with hadef
          by_cases hcut : beta ≤ alpha'
          · rw [if_pos hcut, if_pos hcut]
          · rw [if_neg hcut, if_neg hcut]
            exact ih _ _ _ _ _

/-- Dropping the ghost trace from `minLoopEv` gives `minLoop`, provided the
supplied recursive calls agree likewise. -/
theorem minLoopEv_fst (E : Evaluate β) (b : β)
    (recEv : β → ℚ → ℚ → ℕ → Cache → (ℚ × ℕ × Cache) × List (β × ℚ))
    (recP : β → ℚ → ℚ → ℕ → Cache → ℚ × ℕ × Cache)
    (hrec : ∀ b' a' b2 c' cch, (recEv b' a' b2 c' cch).1 = recP b' a' b2 c' cch) :
    ∀ (ms : List Move) (best alpha beta : ℚ) (cnt : ℕ) (cache : Cache),
    (minLoopEv E b recEv ms best alpha beta cnt cache).1
      = minLoop E b recP ms best alpha beta cnt cache := by
  intro ms
  induction ms with
  | nil => intro best alpha beta cnt cache; rfl
  | cons m ms ih =>
      intro best alpha beta cnt cache
      cases h : lookupCache cache (E.cache_repr b) with
      | some v =>
          simp only [minLoopEv, minLoop, h]
          set best' := if v < best then v else best with hbdef
          set beta' := if best' < beta then best' else beta with hadef
          by_cases hcut : beta' ≤ alpha
          · rw [if_pos hcut, if_pos hcut]
          · rw [if_neg hcut, if_neg hcut]
            exact ih _ _ _ _ _
      | none =>
          simp only [minLoopEv, minLoop, h, hrec]
          set r := recP (E.apply_eval_move b m) alpha beta cnt cache with hrdef
          set best' := if r.1 < best then r.1 else best with hbdef
          set beta' := if best' < beta then best' else beta with hadef
          by_cases hcut : beta' ≤ alpha
          · rw [if_pos hcut, if_pos hcut]
          · rw [if_neg hcut, if_neg hcut]
            exact ih _ _ _ _ _

/-- Dropping the ghost trace from `minimaxEv` gives `minimax`. -/
theorem minimaxEv_fst (E : Evaluate β) :
    ∀ (depth : ℕ) (b : β) (alpha beta : ℚ) (mx : Bool) (col : Color) (cnt : ℕ)
      (engine : Option Weights) (cache : Cache),
    (minimaxEv E b depth alpha beta mx col cnt engine cache).1
      = minimax E b depth alpha beta mx col cnt engine cache := by
  intro depth
  induction depth with
  | zero => intro b alpha beta mx col cnt engine cache; rfl
  | succ d ih =>
      intro b alpha beta mx col cnt engine cache
      cases mx
      · simp only [minimaxEv, minimax, Bool.false_eq_true, if_false]
        exact minLoopEv_fst E b _ _
          (fun b' a' b2 c' cch => ih b' a' b2 _ col c' _ cch) _ _ _ _ _ _
      · simp only [minimaxEv, minimax, if_true]
        exact maxLoopEv_fst E b _ _
          (fun b' a' b2 c' cch => ih b' a' b2 _ col c' _ cch) _ _ _ _ _ _

/-- The counter/cache/score invariant of the ghost trace, at the maximizing
loop: assuming the recursive calls (i) advance the counter by exactly the
length of their trace, (ii) grow the cache by exactly their trace mapped
through `f` (most recent first), and (iii) produce only trace entries
satisfying `P`, the loop does likewise. -/
theorem maxLoopEv_inv (E : Evaluate β) (b : β)
    (recEv : β → ℚ → ℚ → ℕ → Cache → (ℚ × ℕ × Cache) × List (β × ℚ))
    (f : β × ℚ → String × ℚ) (P : β × ℚ → Prop)
    (hrec : ∀ b' a' b2 c' cch,
      (recEv b' a' b2 c' cch).1.2.1 = c' + ((recEv b' a' b2 c' cch).2).length ∧
      (recEv b' a' b2 c' cch).1.2.2 = (((recEv b' a' b2 c' cch).2).map f).reverse ++ cch ∧
      ∀ e ∈ (recEv b' a' b2 c' cch).2, P e) :
    ∀ (ms : List Move) (best alpha beta : ℚ) (cnt : ℕ) (cache : Cache),
    (maxLoopEv E b recEv ms best alpha beta cnt cache).1.2.1
        = cnt + ((maxLoopEv E b recEv ms best alpha beta cnt cache).2).length ∧
      (maxLoopEv E b recEv ms best alpha beta cnt cache).1.2.2
        = (((maxLoopEv E b recEv ms best alpha beta cnt cache).2).map f).reverse ++ cache ∧
      ∀ e ∈ (maxLoopEv E b recEv ms best alpha beta cnt cache).2, P e := by
  intro ms
  induction ms with
  | nil => intro best alpha beta cnt cache; exact ⟨rfl, rfl, by simp [maxLoopEv]⟩
  | cons m ms ih =>
      intro best alpha beta cnt cache
      cases h : lookupCache cache (E.cache_repr b) with
      | some v =>
          simp only [maxLoopEv, h]
          set best' := if v > best then v else best with hbdef
          set alpha' := if best' > alpha then best' else alpha with hadef
          by_cases hcut : beta ≤ alpha'
          · rw [if_pos hcut]
            exact ⟨rfl, rfl, by simp⟩
          · rw [if_neg hcut]
            simpa using ih best' alpha' beta cnt cache
      | none =>
          obtain ⟨hc, hh, hp⟩ := hrec (E.apply_eval_move b m) alpha beta cnt cache
          simp only [maxLoopEv, h]
          set r := recEv (E.apply_eval_move b m) alpha beta cnt cache with hrdef
          set best' := if r.1.1 > best then r.1.1 else best with hbdef
          set alpha' := if best' > alpha then best' else alpha with hadef
          by_cases hcut : beta ≤ alpha'
          · rw [if_pos hcut]
            exact ⟨hc, hh, hp⟩
          · rw [if_neg hcut]
            obtain ⟨ihc, ihh, ihp⟩ := ih best' alpha' beta r.1.2.1 r.1.2.2
            refine ⟨?_, ?_, ?_⟩
            · simp only [List.length_append]
              rw [ihc, hc]
              omega
            · simp only [List.map_append, List.reverse_append]
              rw [ihh, hh, List.append_assoc]
            · intro e he
              rcases List.mem_append.mp he with he | he
              · exact hp e he
              · exact ihp e he

/-- Mirror of `maxLoopEv_inv` for the minimizing loop. -/
theorem minLoopEv_inv (E : Evaluate β) (b : β)
    (recEv : β → ℚ → ℚ → ℕ → Cache → (ℚ × ℕ × Cache) × List (β × ℚ))
    (f : β × ℚ → String × ℚ) (P : β × ℚ → Prop)
    (hrec : ∀ b' a' b2 c' cch,
      (recEv b' a' b2 c' cch).1.2.1 = c' + ((recEv b' a' b2 c' cch).2).length ∧
      (recEv b' a' b2 c' cch).1.2.2 = (((recEv b' a' b2 c' cch).2).map f).reverse ++ cch ∧
      ∀ e ∈ (recEv b' a' b2 c' cch).2, P e) :
    ∀ (ms : List Move) (best alpha beta : ℚ) (cnt : ℕ) (cache : Cache),
    (minLoopEv E b recEv ms best alpha beta cnt cache).1.2.1
        = cnt + ((minLoopEv E b recEv ms best alpha beta cnt cache).2).length ∧
      (minLoopEv E b recEv ms best alpha beta cnt cache).1.2.2
        = (((minLoopEv E b recEv ms best alpha beta cnt cache).2).map f).reverse ++ cache ∧
      ∀ e ∈ (minLoopEv E b recEv ms best alpha beta cnt cache).2, P e := by
  intro ms
  induction ms with
  | nil => intro best alpha beta cnt cache; exact ⟨rfl, rfl, by simp [minLoopEv]⟩
  | cons m ms ih =>
      intro best alpha beta cnt cache
      cases h : lookupCache cache (E.cache_repr b) with
      | some v =>
          simp only [minLoopEv, h]
          set best' := if v < best then v else best with hbdef
          set beta' := if best' < beta then best' else beta with hadef
          by_cases hcut : beta' ≤ alpha
          · rw [if_pos hcut]
            exact ⟨rfl, rfl, by simp⟩
          · rw [if_neg hcut]
            simpa using ih best' alpha beta' cnt cache
      | none =>
          obtain ⟨hc, hh, hp⟩ := hrec (E.apply_eval_move b m) alpha beta cnt cache
          simp only [minLoopEv, h]
          set r := recEv (E.apply_eval_move b m) alpha beta cnt cache with hrdef
          set best' := if r.1.1 < best then r.1.1 else best with hbdef
          set beta' := if best' < beta then best' else beta with hadef
          by_cases hcut : beta' ≤ alpha
          · rw [if_pos hcut]
            exact ⟨hc, hh, hp⟩
          · rw [if_neg hcut]
            obtain ⟨ihc, ihh, ihp⟩ := ih best' alpha beta' r.1.2.1 r.1.2.2
            refine ⟨?_, ?_, ?_⟩
            · simp only [List.length_append]
              rw [ihc, hc]
              omega
            · simp only [List.map_append, List.reverse_append]
              rw [ihh, hh, List.append_assoc]
            · intro e he
              rcases List.mem_append.mp he with he | he
              · exact hp e he
              · exact ihp e he

/-- The ghost-trace invariant for `minimaxEv`: the counter advances by
exactly the number of recorded leaf evaluations; the cache grows by exactly
those evaluations, keyed by the evaluated position's `cache_repr` (most
recent first); and every recorded score is the weighted leaf evaluation of
the recorded position for the perspective color. -/
theorem minimaxEv_inv (E : Evaluate β) :
    ∀ (depth : ℕ) (b : β) (alpha beta : ℚ) (mx : Bool) (col : Color) (cnt : ℕ)
      (engine : Option Weights) (cache : Cache),
    (minimaxEv E b depth alpha beta mx col cnt engine cache).1.2.1
        = cnt + ((minimaxEv E b depth alpha beta mx col cnt engine cache).2).length ∧
      (minimaxEv E b depth alpha beta mx col cnt engine cache).1.2.2
        = (((minimaxEv E b depth alpha beta mx col cnt engine cache).2).map
            (fun e => (E.cache_repr e.1, e.2))).reverse ++ cache ∧
      ∀ e ∈ (minimaxEv E b depth alpha beta mx col cnt engine cache).2,
        e.2 = leafEval E e.1 col (resolveEngine engine) := by
  intro depth
  induction depth with
  | zero =>
      intro b alpha beta mx col cnt engine cache
      refine ⟨rfl, rfl, ?_⟩
      intro e he
      simp only [minimaxEv, List.mem_singleton] at he
      rw [he]
  | succ d ih =>
      intro b alpha beta mx col cnt engine cache
      cases mx
      · simp only [minimaxEv, Bool.false_eq_true, if_false]
        exact minLoopEv_inv E b _ _ _
          (fun b' a' b2 c' cch => ih b' a' b2 _ col c' _ cch) _ _ _ _ _ _
      · simp only [minimaxEv, if_true]
        exact maxLoopEv_inv E b _ _ _
          (fun b' a' b2 c' cch => ih b' a' b2 _ col c' _ cch) _ _ _ _ _ _

/-- Dropping the ghost trace from `evalRootMovesEv` gives `evalRootMoves`. -/
theorem evalRootMovesEv_fst (E : Evaluate β) (b : β) (depth : ℕ) (col : Color)
    (engine : Option Weights) :
    ∀ (ms : List Move) (cnt : ℕ) (cache : Cache),
    (evalRootMovesEv E b depth col engine ms cnt cache).1
      = evalRootMoves E b depth col engine ms cnt cache := by
  intro ms
  induction ms with
  | nil => intro cnt cache; rfl
  | cons m ms ih =>
      intro cnt cache
      simp only [evalRootMovesEv, evalRootMoves, minimaxEv_fst, ih]

/-- The root scan advances the counter by exactly the number of leaf
evaluations recorded across all root moves. -/
theorem evalRootMovesEv_count (E : Evaluate β) (b : β) (depth : ℕ) (col : Color)
    (engine : Option Weights) :
    ∀ (ms : List Move) (cnt : ℕ) (cache : Cache),
    (evalRootMovesEv E b depth col engine ms cnt cache).1.2.1
      = cnt + ((evalRootMovesEv E b depth col engine ms cnt cache).2).length := by
  intro ms
  induction ms with
  | nil => intro cnt cache; rfl
  | cons m ms ih =>
      intro cnt cache
      have h1 := (minimaxEv_inv E depth (E.apply_eval_move b m) (-1000000) 1000000 false
        col cnt engine cache).1
      have h2 := ih (minimaxEv E (E.apply_eval_move b m) depth (-1000000) 1000000 false
          col cnt engine cache).1.2.1
        (minimaxEv E (E.apply_eval_move b m) depth (-1000000) 1000000 false
          col cnt engine cache).1.2.2
      simp only [evalRootMovesEv, List.length_append]
      rw [h2, h1]
      omega

/-- C5: the node counter is incremented exactly once by every `depth == 0`
call; in general the counter advances by exactly the number of depth-0 leaf
evaluations the call performs (the ghost trace of `minimaxEv`, appended only
in the depth-0 branch, so calls with `depth > 0` never increment on their
own); and the count returned by `get_best_next_move` is exactly the number
of depth-0 leaf evaluations performed across all root moves. -/
theorem minimax_board_count_leaves :
    (∀ (γ : Type) (E : Evaluate γ) (b : γ) (alpha beta : ℚ) (mx : Bool) (col : Color)
        (cnt : ℕ) (engine : Option Weights) (cache : Cache),
      (minimax E b 0 alpha beta mx col cnt engine cache).2.1 = cnt + 1) ∧
    (∀ (γ : Type) (E : Evaluate γ) (b : γ) (depth : ℕ) (alpha beta : ℚ) (mx : Bool)
        (col : Color) (cnt : ℕ) (engine : Option Weights) (cache : Cache),
      (minimax E b depth alpha beta mx col cnt engine cache).2.1
        = cnt + ((minimaxEv E b depth alpha beta mx col cnt engine cache).2).length) ∧
    (∀ (γ : Type) (E : Evaluate γ) (b : γ) (depth : ℕ) (engine : Option Weights)
        (mv : Move) (cnt : ℕ) (v : ℚ),
      get_best_next_move E b depth engine = some (mv, cnt, v) →
      cnt = ((evalRootMovesEv E b depth (E.get_current_player_color b) engine
          (E.get_legal_moves b) 0 []).2).length) := by
  refine ⟨?_, ?_, ?_⟩
  · intro γ E b alpha beta mx col cnt engine cache
    rfl
  · intro γ E b depth alpha beta mx col cnt engine cache
    rw [← minimaxEv_fst E depth b alpha beta mx col cnt engine cache]
    exact (minimaxEv_inv E depth b alpha beta mx col cnt engine cache).1
  · intro γ E b depth engine mv cnt v h
    have hfst := evalRootMovesEv_fst E b depth (E.get_current_player_color b) engine
      (E.get_legal_moves b) 0 []
    have hcnt := evalRootMovesEv_count E b depth (E.get_current_player_color b) engine
      (E.get_legal_moves b) 0 []
    cases hr : rustMaxBy (evalRootMoves E b depth (E.get_current_player_color b) engine
        (E.get_legal_moves b) 0 []).1 with
    | none =>
        simp only [get_best_next_move, hr] at h
        exact absurd h (by simp)
    | some x =>
        obtain ⟨xm, xv⟩ := x
        simp only [get_best_next_move, hr, Option.some.injEq, Prod.mk.injEq] at h
        rw [← h.2.1, ← hfst, hcnt]
        simp

/-- C5 witness: on `Etie` the search reports `2` evaluated boards, which is
the length of the ghost leaf-evaluation trace of its root scan. -/
theorem minimax_board_count_witness :
    (2 : ℕ) = ((evalRootMovesEv Etie 0 0 (Etie.get_current_player_color 0) none
        (Etie.get_legal_moves 0) 0 []).2).length :=
  minimax_board_count_leaves.2.2 ℕ Etie 0 0 none Move.KingSideCastle 2 5
    (by simp [get_best_next_move, evalRootMoves, minimax, leafEval, resolveEngine,
      rustMaxBy, Etie, lookupCache, mvA])

/-- C6: every transposition-cache insertion during a minimax call happens in
a `depth == 0` call: the final cache is the initial one extended by exactly
the recorded leaf evaluations (most recent first), each keyed by the
evaluated position's `cache_repr`, and each recorded score is exactly that
position's just-computed weighted evaluation; calls with `depth > 0` insert
nothing of their own. -/
theorem minimax_cache_writes_at_leaves :
    ∀ (γ : Type) (E : Evaluate γ) (b : γ) (depth : ℕ) (alpha beta : ℚ) (mx : Bool)
      (col : Color) (cnt : ℕ) (engine : Option Weights) (cache : Cache),
    (minimax E b depth alpha beta mx col cnt engine cache).2.2
        = (((minimaxEv E b depth alpha beta mx col cnt engine cache).2).map
            (fun e => (E.cache_repr e.1, e.2))).reverse ++ cache ∧
      ((minimaxEv E b depth alpha beta mx col cnt engine cache).2).map Prod.snd
        = ((minimaxEv E b depth alpha beta mx col cnt engine cache).2).map
            (fun e => leafEval E e.1 col (resolveEngine engine)) := by
  intro γ E b depth alpha beta mx col cnt engine cache
  constructor
  · rw [← minimaxEv_fst E depth b alpha beta mx col cnt engine cache]
    exact (minimaxEv_inv E depth b alpha beta mx col cnt engine cache).2.1
  · exact List.map_congr_left
      (fun e he => (minimaxEv_inv E depth b alpha beta mx col cnt engine cache).2.2 e he)

/-- Printing an on-board square yields two non-whitespace characters, the
second a rank digit, and parsing them back recovers the square. -/
theorem pgnStr_shape (p : Position) (h : onBoard p) :
    ∃ fc rc : Char,
      Position.pgnStr p = [fc, rc] ∧
      fc.isWhitespace = false ∧ rc.isWhitespace = false ∧
      ('1' ≤ rc ∧ rc ≤ '8') ∧
      Position.pgn [fc, rc] = .ok p := by
  obtain ⟨h1, h2, h3, h4⟩ := h
  have key : ∀ (r c : Fin 8),
      (Char.ofNat ('a'.toNat + c.val)).isWhitespace = false ∧
      (Char.ofNat ('1'.toNat + r.val)).isWhitespace = false ∧
      ('1' ≤ Char.ofNat ('1'.toNat + r.val) ∧ Char.ofNat ('1'.toNat + r.val) ≤ '8') ∧
      Position.pgn [Char.ofNat ('a'.toNat + c.val), Char.ofNat ('1'.toNat + r.val)]
        = .ok ⟨(r.val : Int), (c.val : Int)⟩ := by decide
  have hrow : ((p.row.toNat : ℕ) : Int) = p.row := Int.toNat_of_nonneg h1
  have hcol : ((p.col.toNat : ℕ) : Int) = p.col := Int.toNat_of_nonneg h3
  have hrlt : p.row.toNat < 8 := by omega
  have hclt : p.col.toNat < 8 := by omega
  obtain ⟨kw, kr, kb, kp⟩ := key ⟨p.row.toNat, hrlt⟩ ⟨p.col.toNat, hclt⟩
  refine ⟨_, _, rfl, kw, kr, kb, ?_⟩
  rw [kp, hrow, hcol]

/-- `dropWhile` does not touch a list whose head fails the predicate. -/
theorem dropWhile_cons_not (c : Char) (cs : RStr) (h : c.isWhitespace = false) :
    (c :: cs).dropWhile Char.isWhitespace = c :: cs := by
  simp [List.dropWhile, h]

/-- Trimming does not change a string whose first and last characters are
not whitespace. -/
theorem trimCs_eq_self (s : RStr)
    (hh : ∀ c, s.head? = some c → c.isWhitespace = false)
    (hl : ∀ c, s.getLast? = some c → c.isWhitespace = false) :
    trimCs s = s := by
  cases s with
  | nil => rfl
  | cons c cs =>
      have h1 : c.isWhitespace = false := hh c rfl
      unfold trimCs
      rw [dropWhile_cons_not c cs h1]
      cases hrev : (c :: cs).reverse with
      | nil => exact absurd hrev (by simp)
      | cons d ds =>
          have hd : d.isWhitespace = false := by
            apply hl
            rw [← List.head?_reverse, hrev]
            rfl
          rw [dropWhile_cons_not d ds hd, ← hrev, List.reverse_reverse]

/-- Scanning a whitespace-free prefix just accumulates it (reversed). -/
theorem splitWsAux_no_ws (A : RStr) (hA : ∀ c ∈ A, c.isWhitespace = false) :
    ∀ (rest : RStr) (acc : RStr),
    splitWsAux (A ++ rest) acc = splitWsAux rest (A.reverse ++ acc) := by
  induction A with
  | nil => intro rest acc; simp
  | cons c A ih =>
      intro rest acc
      have hc : c.isWhitespace = false := hA c (List.mem_cons_self c A)
      have hA' : ∀ x ∈ A, x.isWhitespace = false :=
        fun x hx => hA x (List.mem_cons_of_mem _ hx)
      simp only [List.cons_append, splitWsAux, hc, Bool.false_eq_true, if_false,
        List.append_eq]
      rw [ih hA' rest (c :: acc)]
      simp [List.append_assoc]

/-- A whitespace-free non-empty word followed by a space is emitted as the
next word of the split. -/
theorem splitWs_word_sep (A : RStr) (hA : ∀ c ∈ A, c.isWhitespace = false)
    (hAne : A ≠ []) (rest : RStr) :
    splitWsAux (A ++ ' ' :: rest) [] = A :: splitWsAux rest [] := by
  rw [splitWsAux_no_ws A hA (' ' :: rest) []]
  have hsp : (' ' : Char).isWhitespace = true := rfl
  simp [splitWsAux, hsp, hAne]

/-- A trailing whitespace-free non-empty word is emitted as the last word. -/
theorem splitWs_last_word (B : RStr) (hB : ∀ c ∈ B, c.isWhitespace = false)
    (hBne : B ≠ []) :
    splitWsAux B [] = [B] := by
  have h := splitWsAux_no_ws B hB [] []
  rw [List.append_nil] at h
  rw [h, splitWsAux]
  simp [hBne]

/-- Splitting "<A> to <B>" yields the three words `A`, `to`, `B`. -/
theorem splitWs_three (A B : RStr)
    (hA : ∀ c ∈ A, c.isWhitespace = false) (hAne : A ≠ [])
    (hB : ∀ c ∈ B, c.isWhitespace = false) (hBne : B ≠ []) :
    splitWs (A ++ ' ' :: 't' :: 'o' :: ' ' :: B) = [A, ['t', 'o'], B] := by
  unfold splitWs
  rw [splitWs_word_sep A hA hAne]
  have h2 := splitWs_word_sep ['t', 'o'] (by decide) (by decide) B
  simp only [List.cons_append, List.nil_append] at h2
  rw [h2, splitWs_last_word B hB hBne]

/-- Splitting "<A> to <B> <C>" yields the four words `A`, `to`, `B`, `C`. -/
theorem splitWs_four (A B C : RStr)
    (hA : ∀ c ∈ A, c.isWhitespace = false) (hAne : A ≠ [])
    (hB : ∀ c ∈ B, c.isWhitespace = false) (hBne : B ≠ [])
    (hC : ∀ c ∈ C, c.isWhitespace = false) (hCne : C ≠ []) :
    splitWs (A ++ ' ' :: 't' :: 'o' :: ' ' :: (B ++ ' ' :: C))
      = [A, ['t', 'o'], B, C] := by
  unfold splitWs
  rw [splitWs_word_sep A hA hAne]
  have h2 := splitWs_word_sep ['t', 'o'] (by decide) (by decide) (B ++ ' ' :: C)
  simp only [List.cons_append, List.nil_append] at h2
  rw [h2, splitWs_word_sep B hB hBne, splitWs_last_word C hC hCne]

/-- A trimmed string whose second character is a rank digit matches none of
the fixed resignation/castling spellings (their second characters are all
non-digits), so `Move::parse` falls through to the coordinate grammar. -/
theorem tryFrom_falls_through (c0 c1 : Char) (rest : RStr)
    (hdig : '1' ≤ c1 ∧ c1 ≤ '8')
    (htrim : trimCs (c0 :: c1 :: rest) = c0 :: c1 :: rest) :
    Move.tryFrom (c0 :: c1 :: rest) = Move.fromWords (c0 :: c1 :: rest) := by
  have key : ∀ (d0 d1 : Char) (dr : RStr), c1 ≠ d1 → c0 :: c1 :: rest ≠ d0 :: d1 :: dr := by
    intro d0 d1 dr hne he
    rw [List.cons.injEq, List.cons.injEq] at he
    exact hne he.2.1
  have hch : ∀ (d : Char), ¬('1' ≤ d ∧ d ≤ '8') → c1 ≠ d := by
    intro d hd he
    rw [he] at hdig
    exact hd hdig
  have n01 : c0 :: c1 :: rest ≠ ['r', 'e', 's', 'i', 'g', 'n'] :=
    key 'r' 'e' ['s', 'i', 'g', 'n'] (hch 'e' (by decide))
  have n02 : c0 :: c1 :: rest ≠ ['r', 'e', 's', 'i', 'g', 'n', 's'] :=
    key 'r' 'e' ['s', 'i', 'g', 'n', 's'] (hch 'e' (by decide))
  have n03 : c0 :: c1 :: rest
      ≠ ['q', 'u', 'e', 'e', 'n', 's', 'i', 'd', 'e', ' ', 'c', 'a', 's', 't', 'l', 'e'] :=
    key 'q' 'u' ['e', 'e', 'n', 's', 'i', 'd', 'e', ' ', 'c', 'a', 's', 't', 'l', 'e']
      (hch 'u' (by decide))
  have n04 : c0 :: c1 :: rest
      ≠ ['c', 'a', 's', 't', 'l', 'e', ' ', 'q', 'u', 'e', 'e', 'n', 's', 'i', 'd', 'e'] :=
    key 'c' 'a' ['s', 't', 'l', 'e', ' ', 'q', 'u', 'e', 'e', 'n', 's', 'i', 'd', 'e']
      (hch 'a' (by decide))
  have n05 : c0 :: c1 :: rest ≠ ['O', '-', 'O', '-', 'O'] :=
    key 'O' '-' ['O', '-', 'O'] (hch '-' (by decide))
  have n06 : c0 :: c1 :: rest ≠ ['0', '-', '0', '-', '0'] :=
    key '0' '-' ['0', '-', '0'] (hch '-' (by decide))
  have n07 : c0 :: c1 :: rest ≠ ['o', '-', 'o', '-', 'o'] :=
    key 'o' '-' ['o', '-', 'o'] (hch '-' (by decide))
  have n08 : c0 :: c1 :: rest
      ≠ ['k', 'i', 'n', 'g', 's', 'i', 'd', 'e', ' ', 'c', 'a', 's', 't', 'l', 'e'] :=
    key 'k' 'i' ['n', 'g', 's', 'i', 'd', 'e', ' ', 'c', 'a', 's', 't', 'l', 'e']
      (hch 'i' (by decide))
  have n09 : c0 :: c1 :: rest
      ≠ ['c', 'a', 's', 't', 'l', 'e', ' ', 'k', 'i', 'n', 'g', 's', 'i', 'd', 'e'] :=
    key 'c' 'a' ['s', 't', 'l', 'e', ' ', 'k', 'i', 'n', 'g', 's', 'i', 'd', 'e']
      (hch 'a' (by decide))
  have n10 : c0 :: c1 :: rest ≠ ['O', '-', 'O'] :=
    key 'O' '-' ['O'] (hch '-' (by decide))
  have n11 : c0 :: c1 :: rest ≠ ['0', '-', '0'] :=
    key '0' '-' ['0'] (hch '-' (by decide))
  have n12 : c0 :: c1 :: rest ≠ ['o', '-', 'o'] :=
    key 'o' '-' ['o'] (hch '-' (by decide))
  simp only [Move.tryFrom, htrim, n01, n02, n03, n04, n05, n06, n07, n08, n09, n10,
    n11, n12, or_self, if_false]

/-- Bind on a successful `Except` computation just applies the
continuation. -/
theorem exceptOk_bind {ε α σ : Type} (x : α) (f : α → Except ε σ) :
    (Except.ok x : Except ε α) >>= f = f x := rfl

/-- C2, amended: for every engine-producible move other than `Resign` —
piece moves and promotions between on-board squares with a non-king,
non-pawn promotion piece, and the two castles — parsing the printed form
recovers the move.  `Resign` is excluded: it prints as "Resign" while the
parser accepts only the lowercase spellings (see the counterexample). -/
theorem move_text_roundtrip_amended : ∀ (M : Move), producibleNonResign M →
    Move.tryFrom (Move.toStr M) = .ok M := by
  intro M hM
  cases M with
  | KingSideCastle => decide
  | QueenSideCastle => decide
  | Resign => exact absurd hM (by simp [producibleNonResign])
  | Piece a b =>
      obtain ⟨ha, hb⟩ := hM
      obtain ⟨fa, ra, hsa, hwfa, hwra, hda, hpa⟩ := pgnStr_shape a ha
      obtain ⟨fb, rb, hsb, hwfb, hwrb, hdb, hpb⟩ := pgnStr_shape b hb
      have hA : ∀ c ∈ [fa, ra], c.isWhitespace = false := by
        intro c hc
        simp only [List.mem_cons, List.not_mem_nil, or_false] at hc
        rcases hc with h | h <;> subst h <;> assumption
      have hB : ∀ c ∈ [fb, rb], c.isWhitespace = false := by
        intro c hc
        simp only [List.mem_cons, List.not_mem_nil, or_false] at hc
        rcases hc with h | h <;> subst h <;> assumption
      simp only [Move.toStr]
      rw [hsa, hsb]
      simp only [List.cons_append, List.nil_append]
      have htrim : trimCs (fa :: ra :: ' ' :: 't' :: 'o' :: ' ' :: fb :: rb :: [])
          = fa :: ra :: ' ' :: 't' :: 'o' :: ' ' :: fb :: rb :: [] := by
        apply trimCs_eq_self
        · intro c hc
          simp only [List.head?_cons, Option.some.injEq] at hc
          rw [← hc]
          exact hwfa
        · intro c hc
          simp only [List.getLast?_cons_cons, List.getLast?_singleton,
            Option.some.injEq] at hc
          rw [← hc]
          exact hwrb
      rw [tryFrom_falls_through fa ra _ hda htrim]
      have hsplit := splitWs_three [fa, ra] [fb, rb] hA (by simp) hB (by simp)
      simp only [List.cons_append, List.nil_append] at hsplit
      simp only [Move.fromWords, hsplit, hpa, hpb]
      rfl
  | Promotion a b p =>
      obtain ⟨ha, hb, hk, hpw⟩ := hM
      obtain ⟨fa, ra, hsa, hwfa, hwra, hda, hpa⟩ := pgnStr_shape a ha
      obtain ⟨fb, rb, hsb, hwfb, hwrb, hdb, hpb⟩ := pgnStr_shape b hb
      obtain ⟨pt⟩ := p
      have hA : ∀ c ∈ [fa, ra], c.isWhitespace = false := by
        intro c hc
        simp only [List.mem_cons, List.not_mem_nil, or_false] at hc
        rcases hc with h | h <;> subst h <;> assumption
      have hB : ∀ c ∈ [fb, rb], c.isWhitespace = false := by
        intro c hc
        simp only [List.mem_cons, List.not_mem_nil, or_false] at hc
        rcases hc with h | h <;> subst h <;> assumption
      have htf : Piece.tryFromName (Piece.mk pt).get_name = .ok ⟨pt⟩ := by
        cases pt
        · exact absurd hpw (by simp [Piece.is_pawn])
        · rfl
        · rfl
        · rfl
        · rfl
        · exact absurd hk (by simp [Piece.is_king])
      have hnm : ∀ c ∈ (Piece.mk pt).get_name, c.isWhitespace = false := by
        cases pt <;> decide
      have hne : (Piece.mk pt).get_name ≠ [] := by cases pt <;> decide
      obtain ⟨n0, nrest, hnmeq⟩ := List.exists_cons_of_ne_nil hne
      rw [hnmeq] at htf hnm
      simp only [Move.toStr]
      rw [hsa, hsb, hnmeq]
      simp only [List.cons_append, List.nil_append]
      have hlg : ∀ c,
          (fa :: ra :: ' ' :: 't' :: 'o' :: ' ' :: fb :: rb :: ' ' :: n0 :: nrest).getLast?
            = some c → c.isWhitespace = false := by
        intro c hc
        simp only [List.getLast?_cons_cons] at hc
        obtain ⟨h9, hceq⟩ :=
          List.mem_getLast?_eq_getLast (l := n0 :: nrest) (x := c)
            (Option.mem_def.mpr hc)
        rw [hceq]
        exact hnm _ (List.getLast_mem h9)
      have htrim := trimCs_eq_self
        (fa :: ra :: ' ' :: 't' :: 'o' :: ' ' :: fb :: rb :: ' ' :: n0 :: nrest)
        (by intro c hc
            simp only [List.head?_cons, Option.some.injEq] at hc
            rw [← hc]
            exact hwfa)
        hlg
      rw [tryFrom_falls_through fa ra _ hda htrim]
      have hsplit := splitWs_four [fa, ra] [fb, rb] (n0 :: nrest) hA (by simp) hB (by simp)
        hnm (by simp)
      simp only [List.cons_append, List.nil_append] at hsplit
      simp only [Move.fromWords, hsplit, htf, exceptOk_bind, hk, hpw, hpa, hpb]
      rfl

/-- C2 counterexample: the `Resign` move prints as "Resign", which the
parser does not accept (only "resign"/"resigns"), so the round-trip fails
on it. -/
theorem resign_roundtrip_fails :
    Move.tryFrom (Move.toStr Move.Resign) ≠ .ok Move.Resign := by decide

/-- C2 witness: the amended round-trip instantiated on the kingside
castle. -/
theorem move_text_roundtrip_witness :
    Move.tryFrom (Move.toStr Move.KingSideCastle) = .ok Move.KingSideCastle :=
  move_text_roundtrip_amended Move.KingSideCastle trivial

end ChessEngine
